import Mathlib

/-!
Shallow embedding of the hierarchical segmentation and anchoring engine of the
weaviate_tipaka repository: the window slicer (`slice_ranges` / `chunk_spans`),
the two sentence splitters (the simple regex-driven one of
`pipeline_chunk_subchunk_sentence.py` and the strict scanner of
`build_chunks_subchunks_sentences_fix.py` / `make_chunk_subchunk_sentence_v2.py`),
the sentence char-span computation, the anchor resolver
(`find_subchunk_id_by_char`), the id formatting of `process_file`, and the
token-pointer anchoring of the single-file variants.

Texts are modelled as `List Char`; Python string primitives (`isspace`,
`isupper`, `strip`, `find`, `range`) are modelled explicitly below.
-/

/-- Model of Python `str.isspace` on the ASCII whitespace characters
(space, tab, newline, carriage return, vertical tab, form feed). -/
def pyIsSpace (c : Char) : Bool :=
  c = ' ' || c = '\t' || c = '\n' || c = '\r' || c = Char.ofNat 11 || c = Char.ofNat 12

/-- Model of Python `str.isupper` on a single character. -/
def pyIsUpper (c : Char) : Bool :=
  c.isUpper

/-- The strict splitter's terminator set `".?!"`. -/
def isTerminator (c : Char) : Bool :=
  c = '.' || c = '?' || c = '!'

/-- The strict splitter's opening brackets `"([{"`. -/
def isOpener (c : Char) : Bool :=
  c = '(' || c = '[' || c = '{'

/-- The strict splitter's closing brackets `")]}"`. -/
def isCloser (c : Char) : Bool :=
  c = ')' || c = ']' || c = '}'

/-- `text.replace('\n', ' ')`, one character at a time. -/
def normNewline (c : Char) : Char :=
  if c = '\n' then ' ' else c

/-- Indexing a text, with the (never observed) default `' '`;
models Python `text[i]` under an `i < len(text)` guard. -/
def charAt (u : List Char) (i : Nat) : Char :=
  u.getD i ' '

/-- Model of Python `str.strip()`: drop whitespace from both ends. -/
def pyStrip (s : List Char) : List Char :=
  ((s.dropWhile pyIsSpace).reverse.dropWhile pyIsSpace).reverse

/-- `text[a:b]` for `a ≤ b` (half-open slice). -/
def pySlice (u : List Char) (a b : Nat) : List Char :=
  (u.drop a).take (b - a)

/-! ### Window Slicer

`slice_ranges` in `scripts/build_chunks_subchunks_sentences_fix.py` and
`chunk_spans` in `single_chunk_subchunk_sentence.py` /
`scripts/make_chunk_subchunk_sentence_v2.py` are the same comprehension
`[(i, min(i + size, n)) for i in range(0, n, size)]`.  `range(0, n, step)`
for a positive `step` is modelled with explicit fuel; `fuel ≥ n - start`
makes the model exact, and the top level passes `fuel = n`. -/

def rangeStepAux : Nat → Nat → Nat → Nat → List Nat
  | 0, _, _, _ => []
  | fuel + 1, start, n, step =>
    if start < n then start :: rangeStepAux fuel (start + step) n step else []

/-- `slice_ranges(n, size)` of build_chunks_subchunks_sentences_fix.py:
`[(i, min(i + size, n)) for i in range(0, n, size)]`. -/
def slice_ranges (n size : Nat) : List (Nat × Nat) :=
  (rangeStepAux n 0 n size).map (fun i => (i, min (i + size) n))

/-- `chunk_spans(n_tokens, size)` of single_chunk_subchunk_sentence.py and
make_chunk_subchunk_sentence_v2.py — textually the same comprehension as
`slice_ranges`. -/
def chunk_spans (n size : Nat) : List (Nat × Nat) :=
  (rangeStepAux n 0 n size).map (fun i => (i, min (i + size) n))

/-- `CHUNK_TOKEN_SIZE = 8000` from the scripts. -/
def CHUNK_TOKEN_SIZE : Nat := 8000

/-- `SUBCHUNK_TOKEN_SIZE = 200` from the scripts. -/
def SUBCHUNK_TOKEN_SIZE : Nat := 200

theorem rangeStepAux_get? (step : Nat) (hstep : 0 < step) :
    ∀ (fuel start n k : Nat), n ≤ start + fuel →
      (rangeStepAux fuel start n step).get? k
        = if start + k * step < n then some (start + k * step) else none := by
  intro fuel
  induction fuel with
  | zero =>
    intro start n k h
    have h1 : start ≤ start + k * step := Nat.le_add_right _ _
    have h2 : ¬ start + k * step < n := by omega
    simp [rangeStepAux, h2]
  | succ fuel ih =>
    intro start n k h
    by_cases hs : start < n
    · simp only [rangeStepAux, if_pos hs]
      cases k with
      | zero => simp [hs]
      | succ k =>
        have hrec := ih (start + step) n k (by omega)
        have harith : start + step + k * step = start + (k + 1) * step := by ring
        rw [List.get?_cons_succ, hrec, harith]
    · have h1 : start ≤ start + k * step := Nat.le_add_right _ _
      have h2 : ¬ start + k * step < n := by omega
      simp [rangeStepAux, if_neg hs, h2]

theorem rangeStepAux_length (step : Nat) (hstep : 0 < step) :
    ∀ (fuel start n : Nat), n ≤ start + fuel →
      (rangeStepAux fuel start n step).length = (n - start + step - 1) / step := by
  intro fuel
  induction fuel with
  | zero =>
    intro start n h
    have h1 : n - start = 0 := by omega
    rw [h1]
    have h3 : (step - 1) / step = 0 := Nat.div_eq_of_lt (by omega)
    simp [rangeStepAux]
    omega
  | succ fuel ih =>
    intro start n h
    by_cases hs : start < n
    · simp only [rangeStepAux, if_pos hs, List.length_cons]
      rw [ih (start + step) n (by omega)]
      have hm : 1 ≤ n - start := by omega
      have h1 : n - start + step - 1 = (n - start - 1) + step := by omega
      rw [h1, Nat.add_div_right _ hstep]
      by_cases hc : n - start ≤ step
      · have h2 : n - (start + step) = 0 := by omega
        rw [h2]
        have h3 : (0 + step - 1) / step = 0 := Nat.div_eq_of_lt (by omega)
        have h4 : (n - start - 1) / step = 0 := Nat.div_eq_of_lt (by omega)
        omega
      · have h2 : n - (start + step) + step - 1 = n - start - 1 := by omega
        rw [h2]
    · have h1 : n - start = 0 := by omega
      rw [h1]
      have h3 : (step - 1) / step = 0 := Nat.div_eq_of_lt (by omega)
      simp [rangeStepAux, if_neg hs]
      omega

theorem slice_ranges_get? (n size k : Nat) (hsize : 0 < size) :
    (slice_ranges n size).get? k
      = if k * size < n then some (k * size, min (k * size + size) n) else none := by
  unfold slice_ranges
  rw [List.get?_map, rangeStepAux_get? size hsize n 0 n k (by omega)]
  simp only [Nat.zero_add]
  by_cases hc : k * size < n
  · simp [hc]
  · simp [hc]

theorem slice_ranges_length (n size : Nat) (hsize : 0 < size) :
    (slice_ranges n size).length = (n + size - 1) / size := by
  unfold slice_ranges
  rw [List.length_map, rangeStepAux_length size hsize n 0 n (by omega)]
  simp

theorem slice_ranges_index_lt (n size k : Nat) (hsize : 0 < size) :
    k < (slice_ranges n size).length ↔ k * size < n := by
  constructor
  · intro hk
    by_contra hc
    have h1 := slice_ranges_get? n size k hsize
    rw [if_neg hc] at h1
    have h2 : (slice_ranges n size).length ≤ k := List.get?_eq_none.mp h1
    omega
  · intro hk
    have h1 := slice_ranges_get? n size k hsize
    rw [if_pos hk] at h1
    by_contra hc
    have h2 : (slice_ranges n size).get? k = none := by
      apply List.get?_eq_none.mpr
      omega
    rw [h1] at h2
    exact Option.noConfusion h2

theorem slice_ranges_covers (n size : Nat) (hsize : 0 < size) (x : Nat) :
    x < n ↔ ∃ p ∈ slice_ranges n size, p.1 ≤ x ∧ x < p.2 := by
  constructor
  · intro hx
    have hle : x / size * size ≤ x := Nat.div_mul_le_self x size
    have hdm := Nat.div_add_mod x size
    have hml : x % size < size := Nat.mod_lt x hsize
    have hcomm : size * (x / size) = x / size * size := Nat.mul_comm _ _
    have hup : x < x / size * size + size := by omega
    refine ⟨(x / size * size, min (x / size * size + size) n), ?_, hle, ?_⟩
    · apply List.mem_iff_get?.mpr
      refine ⟨x / size, ?_⟩
      rw [slice_ranges_get? n size _ hsize, if_pos (by omega)]
    · simp only [Nat.lt_min]
      exact ⟨hup, hx⟩
  · rintro ⟨p, hp, h1, h2⟩
    obtain ⟨k, hk⟩ := List.mem_iff_get?.mp hp
    rw [slice_ranges_get? n size k hsize] at hk
    by_cases hc : k * size < n
    · rw [if_pos hc] at hk
      cases hk
      have h2' : x < min (k * size + size) n := h2
      have := Nat.min_le_right (k * size + size) n
      omega
    · rw [if_neg hc] at hk
      exact Option.noConfusion hk

theorem slice_ranges_disjoint (n size : Nat) (hsize : 0 < size) :
    ∀ k l p q, (slice_ranges n size).get? k = some p →
      (slice_ranges n size).get? l = some q → k < l → p.2 ≤ q.1 := by
  intro k l p q hk hl hkl
  rw [slice_ranges_get? n size k hsize] at hk
  rw [slice_ranges_get? n size l hsize] at hl
  by_cases hck : k * size < n
  · by_cases hcl : l * size < n
    · rw [if_pos hck] at hk
      rw [if_pos hcl] at hl
      cases hk
      cases hl
      have h1 : k * size + size = (k + 1) * size := by ring
      have h2 : (k + 1) * size ≤ l * size := Nat.mul_le_mul_right size (by omega)
      have h3 : min (k * size + size) n ≤ k * size + size := Nat.min_le_left _ _
      simp only []
      omega
    · rw [if_neg hcl] at hl
      exact Option.noConfusion hl
  · rw [if_neg hck] at hk
    exact Option.noConfusion hk

theorem slice_ranges_adjacent (n size : Nat) (hsize : 0 < size) :
    ∀ k p q, (slice_ranges n size).get? k = some p →
      (slice_ranges n size).get? (k + 1) = some q → p.2 = q.1 := by
  intro k p q hk hq
  rw [slice_ranges_get? n size k hsize] at hk
  rw [slice_ranges_get? n size (k + 1) hsize] at hq
  by_cases hck : k * size < n
  · by_cases hcq : (k + 1) * size < n
    · rw [if_pos hck] at hk
      rw [if_pos hcq] at hq
      cases hk
      cases hq
      have h1 : k * size + size = (k + 1) * size := by ring
      have h2 : min (k * size + size) n = k * size + size := by
        apply Nat.min_eq_left
        omega
      simp only []
      omega
    · rw [if_neg hcq] at hq
      exact Option.noConfusion hq
  · rw [if_neg hck] at hk
    exact Option.noConfusion hk

theorem slice_ranges_full_spans (n size : Nat) (hsize : 0 < size) :
    ∀ k p q, (slice_ranges n size).get? k = some p →
      (slice_ranges n size).get? (k + 1) = some q → p.2 - p.1 = size := by
  intro k p q hk hq
  have hadj := slice_ranges_adjacent n size hsize k p q hk hq
  rw [slice_ranges_get? n size k hsize] at hk
  rw [slice_ranges_get? n size (k + 1) hsize] at hq
  by_cases hck : k * size < n
  · by_cases hcq : (k + 1) * size < n
    · rw [if_pos hck] at hk
      rw [if_pos hcq] at hq
      cases hk
      cases hq
      have h1 : k * size + size = (k + 1) * size := by ring
      have h2 : min (k * size + size) n = k * size + size := by
        apply Nat.min_eq_left
        omega
      simp only []
      omega
    · rw [if_neg hcq] at hq
      exact Option.noConfusion hq
  · rw [if_neg hck] at hk
    exact Option.noConfusion hk

theorem slice_ranges_last (n size : Nat) (hsize : 0 < size) :
    ∀ p, (slice_ranges n size).get? ((slice_ranges n size).length - 1) = some p →
      p.2 - p.1 = if n % size = 0 then size else n % size := by
  intro p hp
  set L := (slice_ranges n size).length with hL
  have hpos : 0 < L := by
    by_contra hc
    have h0 : L = 0 := by omega
    have : (slice_ranges n size).get? (L - 1) = none := by
      apply List.get?_eq_none.mpr
      omega
    rw [hp] at this
    exact Option.noConfusion this
  have hidx : (L - 1) * size < n := by
    have := (slice_ranges_index_lt n size (L - 1) hsize).mp (by omega)
    exact this
  have hub : ¬ L * size < n := by
    intro hc
    have := (slice_ranges_index_lt n size L hsize).mpr hc
    omega
  rw [slice_ranges_get? n size (L - 1) hsize, if_pos hidx] at hp
  cases hp
  have hmul : (L - 1) * size + size = L * size := by
    have h1 : L - 1 + 1 = L := by omega
    calc (L - 1) * size + size = (L - 1 + 1) * size := by ring
    _ = L * size := by rw [h1]
  have hmin : min ((L - 1) * size + size) n = n := by
    apply Nat.min_eq_right
    omega
  simp only [hmin]
  -- now show n - (L - 1) * size = if n % size = 0 then size else n % size
  have hdm := Nat.div_add_mod n size
  have hml : n % size < size := Nat.mod_lt n hsize
  have hcm : (n / size) * size = size * (n / size) := Nat.mul_comm _ _
  have hLval : L = (n + size - 1) / size := slice_ranges_length n size hsize
  by_cases hr : n % size = 0
  · -- n = size * (n / size), L = n / size
    have hn1 : 0 < n := by
      have ha : 0 ≤ (L - 1) * size := Nat.zero_le _
      omega
    have hsn : size ≤ n := by
      by_cases hlt : n < size
      · exfalso
        have hmod : n % size = n := Nat.mod_eq_of_lt hlt
        omega
      · omega
    have hq1 : 0 < n / size := Nat.div_pos hsn hsize
    have hL' : L = n / size := by
      rw [hLval]
      have h1 : n + size - 1 = (size - 1) + (n / size) * size := by omega
      rw [h1, Nat.add_mul_div_right _ _ hsize, Nat.div_eq_of_lt (by omega)]
      omega
    have h3 : L * size = n := by
      rw [hL']
      omega
    have h4 : size ≤ size * (n / size) := Nat.le_mul_of_pos_right size hq1
    rw [if_pos hr]
    omega
  · have hL' : L = n / size + 1 := by
      rw [hLval]
      have hexp : (n / size + 1) * size = (n / size) * size + size := by ring
      have h1 : n + size - 1 = (n % size - 1) + (n / size + 1) * size := by omega
      rw [h1, Nat.add_mul_div_right _ _ hsize, Nat.div_eq_of_lt (by omega)]
      omega
    have hL1 : L - 1 = n / size := by omega
    have h2 : (L - 1) * size = (n / size) * size := by rw [hL1]
    rw [if_neg hr]
    omega

theorem slice_ranges_sum (n size : Nat) (hsize : 0 < size) :
    ((slice_ranges n size).map (fun q => q.2 - q.1)).sum = n := by
  unfold slice_ranges
  rw [List.map_map]
  have key : ∀ (fuel start : Nat), n ≤ start + fuel →
      ((rangeStepAux fuel start n size).map
        ((fun q : Nat × Nat => q.2 - q.1) ∘ fun i => (i, min (i + size) n))).sum
        = n - start := by
    intro fuel
    induction fuel with
    | zero =>
      intro start h
      simp [rangeStepAux]
      omega
    | succ fuel ih =>
      intro start h
      by_cases hs : start < n
      · simp only [rangeStepAux, if_pos hs, List.map_cons, List.sum_cons, Function.comp]
        rw [ih (start + size) (by omega)]
        rcases Nat.le_total (start + size) n with hc | hc
        · rw [Nat.min_eq_left hc]
          omega
        · rw [Nat.min_eq_right hc]
          omega
      · simp only [rangeStepAux, if_neg hs, List.map_nil, List.sum_nil]
        omega
  have := key n 0 (by omega)
  omega

/-- C1: for every `n ≥ 0` and `size > 0`, the Window Slicer
(`chunk_spans` / `slice_ranges`) returns an ordered sequence of pairwise
disjoint half-open spans whose union is exactly `[0, n)`, with span count
`ceil(n / size) = (n + size - 1) / size`, every span of length `size` except
possibly the last, whose length is `n % size` (or `size` when `n` is an exact
multiple of `size`), and for `n = 0` the result is empty. -/
theorem slice_ranges_partition (n size : Nat) (hsize : 0 < size) :
    chunk_spans n size = slice_ranges n size ∧
    (slice_ranges n size).length = (n + size - 1) / size ∧
    (∀ k, (slice_ranges n size).get? k
        = if k * size < n then some (k * size, min (k * size + size) n) else none) ∧
    (∀ k l p q, (slice_ranges n size).get? k = some p →
        (slice_ranges n size).get? l = some q → k < l → p.2 ≤ q.1) ∧
    (∀ k p q, (slice_ranges n size).get? k = some p →
        (slice_ranges n size).get? (k + 1) = some q → p.2 = q.1 ∧ p.2 - p.1 = size) ∧
    (∀ x, x < n ↔ ∃ p ∈ slice_ranges n size, p.1 ≤ x ∧ x < p.2) ∧
    (∀ p, (slice_ranges n size).get? ((slice_ranges n size).length - 1) = some p →
        p.2 - p.1 = if n % size = 0 then size else n % size) ∧
    (n = 0 → slice_ranges n size = []) := by
  refine ⟨rfl, slice_ranges_length n size hsize, fun k => slice_ranges_get? n size k hsize,
    slice_ranges_disjoint n size hsize,
    fun k p q hk hq => ⟨slice_ranges_adjacent n size hsize k p q hk hq,
      slice_ranges_full_spans n size hsize k p q hk hq⟩,
    fun x => slice_ranges_covers n size hsize x,
    slice_ranges_last n size hsize, ?_⟩
  intro hn
  subst hn
  have hlen := slice_ranges_length 0 size hsize
  have h0 : (0 + size - 1) / size = 0 := Nat.div_eq_of_lt (by omega)
  exact List.length_eq_zero.mp (by rw [hlen, h0])

theorem slice_ranges_partition_witness :
    0 < 2 ∧ (slice_ranges 5 2).length = (5 + 2 - 1) / 2 :=
  ⟨by decide, (slice_ranges_partition 5 2 (by decide)).2.1⟩

/-- C2: for every chunk span produced by the engine (an element of
`slice_ranges N CHUNK_TOKEN_SIZE`), the sum of the token counts of its
sub-chunks (`slice_ranges` of the chunk's token count with window
`SUBCHUNK_TOKEN_SIZE`, token count of a span being `end_excl - start` as in
`process_file`) equals the chunk's own token count, and the sub-chunk spans,
in order, exactly partition the parent chunk's local token range `[0, count)`
(adjacent consecutive spans, union equal to the range). -/
theorem subchunk_token_sum (N : Nat) (p : Nat × Nat)
    (hp : p ∈ slice_ranges N CHUNK_TOKEN_SIZE) :
    (((slice_ranges (p.2 - p.1) SUBCHUNK_TOKEN_SIZE).map (fun q => q.2 - q.1)).sum
        = p.2 - p.1) ∧
    (∀ x, x < p.2 - p.1 ↔
        ∃ q ∈ slice_ranges (p.2 - p.1) SUBCHUNK_TOKEN_SIZE, q.1 ≤ x ∧ x < q.2) ∧
    (∀ k a b, (slice_ranges (p.2 - p.1) SUBCHUNK_TOKEN_SIZE).get? k = some a →
        (slice_ranges (p.2 - p.1) SUBCHUNK_TOKEN_SIZE).get? (k + 1) = some b →
        a.2 = b.1) := by
  have hS : 0 < SUBCHUNK_TOKEN_SIZE := by decide
  exact ⟨slice_ranges_sum _ _ hS, fun x => slice_ranges_covers _ _ hS x,
    fun k a b => slice_ranges_adjacent _ _ hS k a b⟩

theorem subchunk_token_sum_witness :
    (8000, 8500) ∈ slice_ranges 8500 CHUNK_TOKEN_SIZE ∧
    (((slice_ranges ((8000, 8500).2 - (8000, 8500).1) SUBCHUNK_TOKEN_SIZE).map
        (fun q => q.2 - q.1)).sum = (8000, 8500).2 - (8000, 8500).1) :=
  ⟨by decide, (subchunk_token_sum 8500 (8000, 8500) (by decide)).1⟩

/-! ### Strict sentence splitter

`split_into_sentences` of build_chunks_subchunks_sentences_fix.py and
`split_sentences_strict` of make_chunk_subchunk_sentence_v2.py share one scan
loop: track a bracket stack; at a terminator with empty stack, followed by a
space, whose next non-whitespace character is uppercase, emit
`text[start:i+1]` and resume at that non-whitespace position; at the end emit
the stripped tail.  The fix variant first replaces newlines by spaces. -/

/-- The `while j < n and text[j].isspace(): j += 1` loop of the strict
splitter, with explicit fuel (the top level passes `fuel = len(text)`,
always sufficient). -/
def skipSpaces (u : List Char) : Nat → Nat → Nat
  | 0, j => j
  | fuel + 1, j =>
    if j < u.length ∧ pyIsSpace (charAt u j) then skipSpaces u fuel (j + 1) else j

/-- First non-whitespace position at or after `j` (or `len(text)` / beyond). -/
def findNonWsFrom (u : List Char) (j : Nat) : Nat :=
  skipSpaces u u.length j

/-- One bracket-tracking step: push on an opener, saturating pop on a closer,
ignore anything else. -/
def pyDepthStep (d : Nat) (c : Char) : Nat :=
  if isOpener c then d + 1 else if isCloser c then d - 1 else d

/-- Bracket-nesting depth after scanning the first `i` characters, i.e. the
length of the scanner's bracket stack when it reaches position `i`. -/
def depthUpto (u : List Char) : Nat → Nat
  | 0 => 0
  | i + 1 => if i < u.length then pyDepthStep (depthUpto u i) (charAt u i) else depthUpto u i

theorem pyIsSpace_not_terminator (c : Char) (h : pyIsSpace c = true) :
    isTerminator c = false := by
  simp only [pyIsSpace, Bool.or_eq_true, decide_eq_true_eq] at h
  rcases h with ((((h | h) | h) | h) | h) | h <;> subst h <;> decide

theorem pyIsSpace_not_bracket (c : Char) (h : pyIsSpace c = true) :
    isOpener c = false ∧ isCloser c = false := by
  simp only [pyIsSpace, Bool.or_eq_true, decide_eq_true_eq] at h
  rcases h with ((((h | h) | h) | h) | h) | h <;> subst h <;> exact ⟨by decide, by decide⟩

theorem isTerminator_not_bracket (c : Char) (h : isTerminator c = true) :
    isOpener c = false ∧ isCloser c = false := by
  simp only [isTerminator, Bool.or_eq_true, decide_eq_true_eq] at h
  rcases h with (h | h) | h <;> subst h <;> exact ⟨by decide, by decide⟩

theorem isOpener_not_terminator (c : Char) (h : isOpener c = true) :
    isTerminator c = false := by
  simp only [isOpener, Bool.or_eq_true, decide_eq_true_eq] at h
  rcases h with (h | h) | h <;> subst h <;> decide

theorem isCloser_not_terminator (c : Char) (h : isCloser c = true) :
    isTerminator c = false := by
  simp only [isCloser, Bool.or_eq_true, decide_eq_true_eq] at h
  rcases h with (h | h) | h <;> subst h <;> decide

theorem skipSpaces_ge (u : List Char) : ∀ fuel j, j ≤ skipSpaces u fuel j := by
  intro fuel
  induction fuel with
  | zero => intro j; simp [skipSpaces]
  | succ fuel ih =>
    intro j
    simp only [skipSpaces]
    by_cases hc : j < u.length ∧ pyIsSpace (charAt u j) = true
    · rw [if_pos hc]
      have := ih (j + 1)
      omega
    · rw [if_neg hc]

theorem skipSpaces_between (u : List Char) :
    ∀ fuel j k, j ≤ k → k < skipSpaces u fuel j → pyIsSpace (charAt u k) = true := by
  intro fuel
  induction fuel with
  | zero =>
    intro j k h1 h2
    simp only [skipSpaces] at h2
    omega
  | succ fuel ih =>
    intro j k h1 h2
    simp only [skipSpaces] at h2
    by_cases hc : j < u.length ∧ pyIsSpace (charAt u j) = true
    · rw [if_pos hc] at h2
      rcases Nat.eq_or_lt_of_le h1 with he | hl
      · rw [← he]
        exact hc.2
      · exact ih (j + 1) k hl h2
    · rw [if_neg hc] at h2
      omega

theorem skipSpaces_stop (u : List Char) :
    ∀ fuel j, u.length ≤ j + fuel → skipSpaces u fuel j < u.length →
      pyIsSpace (charAt u (skipSpaces u fuel j)) = false := by
  intro fuel
  induction fuel with
  | zero =>
    intro j h1 h2
    simp only [skipSpaces] at h2
    omega
  | succ fuel ih =>
    intro j h1 h2
    simp only [skipSpaces] at h2 ⊢
    by_cases hc : j < u.length ∧ pyIsSpace (charAt u j) = true
    · rw [if_pos hc] at h2 ⊢
      exact ih (j + 1) (by omega) h2
    · rw [if_neg hc] at h2 ⊢
      rcases Bool.eq_false_or_eq_true (pyIsSpace (charAt u j)) with hf | ht
      · exact absurd ⟨h2, hf⟩ hc
      · exact ht

theorem findNonWsFrom_ge (u : List Char) (j : Nat) : j ≤ findNonWsFrom u j :=
  skipSpaces_ge u u.length j

theorem findNonWsFrom_between (u : List Char) (j k : Nat) (h1 : j ≤ k)
    (h2 : k < findNonWsFrom u j) : pyIsSpace (charAt u k) = true :=
  skipSpaces_between u u.length j k h1 h2

theorem findNonWsFrom_stop (u : List Char) (j : Nat)
    (h : findNonWsFrom u j < u.length) :
    pyIsSpace (charAt u (findNonWsFrom u j)) = false :=
  skipSpaces_stop u u.length j (by omega) h

theorem depthUpto_succ (u : List Char) (i : Nat) (h : i < u.length) :
    depthUpto u (i + 1) = pyDepthStep (depthUpto u i) (charAt u i) := by
  simp [depthUpto, h]

theorem depthUpto_constant (u : List Char) :
    ∀ (b a : Nat), a ≤ b → b ≤ u.length →
      (∀ m, a ≤ m → m < b →
        isOpener (charAt u m) = false ∧ isCloser (charAt u m) = false) →
      depthUpto u b = depthUpto u a := by
  intro b
  induction b with
  | zero =>
    intro a h _ _
    have h0 : a = 0 := by omega
    rw [h0]
  | succ b ih =>
    intro a hab hb hmid
    rcases Nat.eq_or_lt_of_le hab with he | hl
    · rw [he]
    · have hb' : b < u.length := by omega
      rw [depthUpto_succ u b hb']
      have hm := hmid b (by omega) (by omega)
      have hstep : pyDepthStep (depthUpto u b) (charAt u b) = depthUpto u b := by
        unfold pyDepthStep
        rw [if_neg (by simp [hm.1]), if_neg (by simp [hm.2])]
      rw [hstep]
      exact ih a (by omega) (by omega) (fun m h1 h2 => hmid m h1 (by omega))

/-- The strict scan of `split_into_sentences` (fix) / `split_sentences_strict`
(v2), recording the raw `(start, i + 1)` segment at each boundary plus the
final `(start, len)` tail segment.  `stack` is the bracket stack, `i` the scan
position; `fuel ≥ len - i` makes the model exact (the top level passes
`fuel = len`, and once `i ≥ len` the result no longer depends on fuel). -/
def scanSegsAux (u : List Char) : Nat → List Char → Nat → Nat → List (Nat × Nat)
  | 0, _, start, _ => [(start, u.length)]
  | fuel + 1, stack, start, i =>
    if i < u.length then
      if isOpener (charAt u i) then
        scanSegsAux u fuel (charAt u i :: stack) start (i + 1)
      else if isCloser (charAt u i) ∧ stack ≠ [] then
        scanSegsAux u fuel stack.tail start (i + 1)
      else if isTerminator (charAt u i) ∧ stack = [] ∧ i + 1 < u.length ∧
          charAt u (i + 1) = ' ' ∧ findNonWsFrom u (i + 2) < u.length ∧
          pyIsUpper (charAt u (findNonWsFrom u (i + 2))) then
        (start, i + 1) ::
          scanSegsAux u fuel stack (findNonWsFrom u (i + 2)) (findNonWsFrom u (i + 2))
      else scanSegsAux u fuel stack start (i + 1)
    else [(start, u.length)]

/-- The same scan, recording the positions `i` at which a boundary fires. -/
def scanBdsAux (u : List Char) : Nat → List Char → Nat → List Nat
  | 0, _, _ => []
  | fuel + 1, stack, i =>
    if i < u.length then
      if isOpener (charAt u i) then
        scanBdsAux u fuel (charAt u i :: stack) (i + 1)
      else if isCloser (charAt u i) ∧ stack ≠ [] then
        scanBdsAux u fuel stack.tail (i + 1)
      else if isTerminator (charAt u i) ∧ stack = [] ∧ i + 1 < u.length ∧
          charAt u (i + 1) = ' ' ∧ findNonWsFrom u (i + 2) < u.length ∧
          pyIsUpper (charAt u (findNonWsFrom u (i + 2))) then
        i :: scanBdsAux u fuel stack (findNonWsFrom u (i + 2))
      else scanBdsAux u fuel stack (i + 1)
    else []

/-- `split_sentences_strict(text)` of make_chunk_subchunk_sentence_v2.py:
run the strict scan and materialize each emitted segment stripped, keeping
the non-empty ones. -/
def split_sentences_strict (t : List Char) : List (List Char) :=
  ((scanSegsAux t t.length [] 0 0).map (fun p => pyStrip (pySlice t p.1 p.2))).filter
    (fun s => !s.isEmpty)

/-- `split_into_sentences(text)` of build_chunks_subchunks_sentences_fix.py:
the same strict scan after `text.replace('\n', ' ')`. -/
def split_into_sentences_fix (t : List Char) : List (List Char) :=
  split_sentences_strict (t.map normNewline)

/-- The positions at which the fix variant's strict scanner ends a sentence. -/
def strict_boundary_positions (t : List Char) : List Nat :=
  scanBdsAux (t.map normNewline) (t.map normNewline).length [] 0

/-- The boundary condition the code actually tests at position `i`:
a terminator, bracket-nesting depth zero, a literal space `' '` immediately
after, and a first non-whitespace character after it that exists and is
uppercase. -/
def strictCondAt (u : List Char) (i : Nat) : Prop :=
  isTerminator (charAt u i) = true ∧ depthUpto u i = 0 ∧ i + 1 < u.length ∧
  charAt u (i + 1) = ' ' ∧ findNonWsFrom u (i + 2) < u.length ∧
  pyIsUpper (charAt u (findNonWsFrom u (i + 2))) = true

/-- Modelled from the spec: the claim's boundary condition as stated, with
"the character immediately after the terminator is a whitespace character"
in place of the literal space the code requires. -/
def specWhitespaceCondAt (u : List Char) (i : Nat) : Prop :=
  isTerminator (charAt u i) = true ∧ depthUpto u i = 0 ∧ i + 1 < u.length ∧
  pyIsSpace (charAt u (i + 1)) = true ∧ findNonWsFrom u (i + 2) < u.length ∧
  pyIsUpper (charAt u (findNonWsFrom u (i + 2))) = true

theorem strictCondAt_succ_iff (u : List Char) (i k : Nat)
    (hnot : ¬ strictCondAt u i) :
    (i + 1 ≤ k ∧ strictCondAt u k) ↔ (i ≤ k ∧ strictCondAt u k) := by
  constructor
  · rintro ⟨h1, h2⟩
    exact ⟨by omega, h2⟩
  · rintro ⟨h1, h2⟩
    refine ⟨?_, h2⟩
    rcases Nat.eq_or_lt_of_le h1 with he | hl
    · exfalso
      rw [← he] at h2
      exact hnot h2
    · omega

theorem scanBdsAux_mem (u : List Char) :
    ∀ (fuel i : Nat) (stack : List Char), u.length ≤ i + fuel →
      stack.length = depthUpto u i →
      ∀ k, k ∈ scanBdsAux u fuel stack i ↔ (i ≤ k ∧ strictCondAt u k) := by
  intro fuel
  induction fuel with
  | zero =>
    intro i stack hfuel hstack k
    simp only [scanBdsAux, List.not_mem_nil, false_iff]
    rintro ⟨hik, hc⟩
    simp only [strictCondAt] at hc
    obtain ⟨-, -, h3, -⟩ := hc
    omega
  | succ fuel ih =>
    intro i stack hfuel hstack k
    by_cases hi : i < u.length
    · by_cases hop : isOpener (charAt u i) = true
      · have hrw : scanBdsAux u (fuel + 1) stack i
            = scanBdsAux u fuel (charAt u i :: stack) (i + 1) := by
          simp only [scanBdsAux]
          rw [if_pos hi, if_pos hop]
        rw [hrw]
        have hstack' : (charAt u i :: stack).length = depthUpto u (i + 1) := by
          rw [depthUpto_succ u i hi]
          unfold pyDepthStep
          rw [if_pos hop]
          simp [hstack]
        rw [ih (i + 1) (charAt u i :: stack) (by omega) hstack' k]
        apply strictCondAt_succ_iff
        intro hc
        simp only [strictCondAt] at hc
        rw [isOpener_not_terminator _ hop] at hc
        exact Bool.noConfusion hc.1
      · by_cases hcl : isCloser (charAt u i) = true ∧ stack ≠ []
        · have hrw : scanBdsAux u (fuel + 1) stack i
              = scanBdsAux u fuel stack.tail (i + 1) := by
            simp only [scanBdsAux]
            rw [if_pos hi, if_neg hop, if_pos hcl]
          rw [hrw]
          have hstack' : stack.tail.length = depthUpto u (i + 1) := by
            rw [depthUpto_succ u i hi]
            unfold pyDepthStep
            rw [if_neg hop, if_pos hcl.1, ← hstack]
            cases stack with
            | nil => exact absurd rfl hcl.2
            | cons a l => simp
          rw [ih (i + 1) stack.tail (by omega) hstack' k]
          apply strictCondAt_succ_iff
          intro hc
          simp only [strictCondAt] at hc
          rw [isCloser_not_terminator _ hcl.1] at hc
          exact Bool.noConfusion hc.1
        · by_cases hbd : isTerminator (charAt u i) = true ∧ stack = [] ∧
              i + 1 < u.length ∧ charAt u (i + 1) = ' ' ∧
              findNonWsFrom u (i + 2) < u.length ∧
              pyIsUpper (charAt u (findNonWsFrom u (i + 2))) = true
          · have hrw : scanBdsAux u (fuel + 1) stack i
                = i :: scanBdsAux u fuel stack (findNonWsFrom u (i + 2)) := by
              simp only [scanBdsAux]
              rw [if_pos hi, if_neg hop, if_neg hcl, if_pos hbd]
            rw [hrw]
            obtain ⟨hb1, hb2, hb3, hb4, hb5, hb6⟩ := hbd
            have hj2 : i + 2 ≤ findNonWsFrom u (i + 2) := findNonWsFrom_ge u (i + 2)
            have hdi : depthUpto u i = 0 := by
              rw [← hstack, hb2]
              rfl
            have hcondi : strictCondAt u i := by
              simp only [strictCondAt]
              exact ⟨hb1, hdi, hb3, hb4, hb5, hb6⟩
            have hnobr : ∀ m, i ≤ m → m < findNonWsFrom u (i + 2) →
                isOpener (charAt u m) = false ∧ isCloser (charAt u m) = false := by
              intro m h1 h2
              rcases Nat.lt_or_ge m (i + 1) with hm | hm
              · have hmi : m = i := by omega
                rw [hmi]
                exact isTerminator_not_bracket _ hb1
              · rcases Nat.lt_or_ge m (i + 2) with hm' | hm'
                · have hmi : m = i + 1 := by omega
                  rw [hmi, hb4]
                  exact ⟨by decide, by decide⟩
                · exact pyIsSpace_not_bracket _ (findNonWsFrom_between u (i + 2) m hm' h2)
            have hdj : depthUpto u (findNonWsFrom u (i + 2)) = depthUpto u i :=
              depthUpto_constant u (findNonWsFrom u (i + 2)) i (by omega) (by omega) hnobr
            have hstack' : stack.length = depthUpto u (findNonWsFrom u (i + 2)) := by
              rw [hdj]
              exact hstack
            rw [List.mem_cons, ih (findNonWsFrom u (i + 2)) stack (by omega) hstack' k]
            constructor
            · rintro (he | ⟨h1, h2⟩)
              · rw [he]
                exact ⟨Nat.le_refl i, hcondi⟩
              · exact ⟨by omega, h2⟩
            · rintro ⟨h1, h2⟩
              by_cases hki : k = i
              · exact Or.inl hki
              · refine Or.inr ⟨?_, h2⟩
                by_contra hlt
                push_neg at hlt
                have hsp : pyIsSpace (charAt u k) = true := by
                  rcases Nat.lt_or_ge k (i + 2) with hk2 | hk2
                  · have hki1 : k = i + 1 := by omega
                    rw [hki1, hb4]
                    decide
                  · exact findNonWsFrom_between u (i + 2) k hk2 hlt
                simp only [strictCondAt] at h2
                rw [pyIsSpace_not_terminator _ hsp] at h2
                exact Bool.noConfusion h2.1
          · have hrw : scanBdsAux u (fuel + 1) stack i
                = scanBdsAux u fuel stack (i + 1) := by
              simp only [scanBdsAux]
              rw [if_pos hi, if_neg hop, if_neg hcl, if_neg hbd]
            rw [hrw]
            have hstack' : stack.length = depthUpto u (i + 1) := by
              rw [depthUpto_succ u i hi]
              unfold pyDepthStep
              rw [if_neg hop]
              by_cases hc2 : isCloser (charAt u i) = true
              · rw [if_pos hc2]
                have hse : stack = [] := by
                  by_contra hne
                  exact hcl ⟨hc2, hne⟩
                rw [← hstack, hse]
                rfl
              · rw [if_neg hc2]
                exact hstack
            rw [ih (i + 1) stack (by omega) hstack' k]
            apply strictCondAt_succ_iff
            intro hcond
            simp only [strictCondAt] at hcond
            obtain ⟨h1, h2, h3, h4, h5, h6⟩ := hcond
            apply hbd
            refine ⟨h1, ?_, h3, h4, h5, h6⟩
            exact List.length_eq_zero.mp (by rw [hstack, h2])
    · have hrw : scanBdsAux u (fuel + 1) stack i = [] := by
        simp only [scanBdsAux]
        rw [if_neg hi]
      rw [hrw]
      simp only [List.not_mem_nil, false_iff]
      rintro ⟨hik, hc⟩
      simp only [strictCondAt] at hc
      obtain ⟨-, -, h3, -⟩ := hc
      omega

/-- C3 (amended): under the strict policy, after newlines are normalized to
spaces, the scanner ends a sentence at position `i` if and only if `text[i]`
is a terminator in `".?!"`, the bracket-nesting depth at `i` is zero, the
character immediately after the terminator is a **space** `' '` (not arbitrary
whitespace), and the first non-whitespace character after it exists and is
uppercase; otherwise the terminator is treated as ordinary text. -/
theorem strict_boundary_characterization (t : List Char) (i : Nat) :
    i ∈ strict_boundary_positions t ↔ strictCondAt (t.map normNewline) i := by
  unfold strict_boundary_positions
  rw [scanBdsAux_mem (t.map normNewline) (t.map normNewline).length 0 [] (by omega) rfl i]
  simp

/-- C3 counterexample: on `"A.\tB"` (tab after the terminator) the claim's
stated condition — terminator, depth zero, followed by a *whitespace*
character, next non-whitespace uppercase — holds at position 1, yet the
scanner does not end a sentence there and returns the text unsplit: the code
demands a literal space `' '` after the terminator. -/
theorem strict_whitespace_cex :
    specWhitespaceCondAt (['A', '.', '\t', 'B'].map normNewline) 1 ∧
    1 ∉ strict_boundary_positions ['A', '.', '\t', 'B'] ∧
    split_into_sentences_fix ['A', '.', '\t', 'B'] = [['A', '.', '\t', 'B']] := by
  refine ⟨?_, by decide, by decide⟩
  simp only [specWhitespaceCondAt]
  decide

/-! ### Simple sentence splitter

`split_into_sentences` of pipeline_chunk_subchunk_sentence.py (identical in
single_chunk_subchunk_sentence.py and scripts/build_chunks_subchunks_sentences.py):
split on `re.split(r'(\.|\(|\))', text)` after replacing newlines by spaces,
track `paren_level`, and end a sentence at each `'.'` part seen at level 0. -/

/-- The characters the regexp `(\.|\(|\))` captures. -/
def isSimpleSep (c : Char) : Bool :=
  c = '.' || c = '(' || c = ')'

/-- Model of `re.split(r'(\.|\(|\))', text)`: alternating (possibly empty)
runs of other characters and single separator characters. -/
def reSplitParts : List Char → List (List Char)
  | [] => [[]]
  | c :: rest =>
    if isSimpleSep c then [] :: [c] :: reSplitParts rest
    else
      match reSplitParts rest with
      | p :: ps => (c :: p) :: ps
      | [] => [[c]]

/-- The part-consuming loop of the simple `split_into_sentences`.  `current`
is modelled by the join of the code's `current` list (only `''.flatten(current)`
is ever observed), `depth` is `paren_level` (with the saturating decrement
`max(paren_level - 1, 0)`), and `acc` accumulates emitted sentences in
reverse; the stripped tail is emitted at the end when non-empty. -/
def simpleScan : List (List Char) → List Char → Nat → List (List Char) → List (List Char)
  | [], current, _, acc =>
    (if pyStrip current = [] then acc else pyStrip current :: acc).reverse
  | p :: ps, current, depth, acc =>
    if p = ['('] then simpleScan ps (current ++ ['(']) (depth + 1) acc
    else if p = [')'] then simpleScan ps (current ++ [')']) (depth - 1) acc
    else if p = ['.'] ∧ depth = 0 then
      simpleScan ps [] depth
        (if pyStrip (current ++ ['.']) = [] then acc else pyStrip (current ++ ['.']) :: acc)
    else simpleScan ps (current ++ p) depth acc

/-- `split_into_sentences(text)` of pipeline_chunk_subchunk_sentence.py:
the simple policy (terminator `'.'` only, parentheses only, no look-ahead). -/
def split_into_sentences (t : List Char) : List (List Char) :=
  simpleScan (reSplitParts (t.map normNewline)) [] 0 []

theorem reSplitParts_join : ∀ u : List Char, (reSplitParts u).flatten = u := by
  intro u
  induction u with
  | nil => rfl
  | cons c rest ih =>
    by_cases hs : isSimpleSep c = true
    · simp only [reSplitParts, if_pos hs, List.flatten_cons, List.nil_append,
        List.singleton_append]
      rw [ih]
    · simp only [reSplitParts, if_neg hs]
      cases hps : reSplitParts rest with
      | nil =>
        rw [hps] at ih
        simp only [List.flatten_nil] at ih
        simp [← ih]
      | cons p ps =>
        rw [hps] at ih
        simp only [List.flatten_cons] at ih ⊢
        rw [List.cons_append, ih]

theorem reSplitParts_mem_subset :
    ∀ (u p : List Char), p ∈ reSplitParts u → ∀ c ∈ p, c ∈ u := by
  intro u
  induction u with
  | nil =>
    intro p hp c hc
    simp only [reSplitParts, List.mem_singleton] at hp
    rw [hp] at hc
    simp at hc
  | cons a rest ih =>
    intro p hp c hc
    by_cases hs : isSimpleSep a = true
    · simp only [reSplitParts, if_pos hs] at hp
      rcases List.mem_cons.mp hp with h1 | hp2
      · rw [h1] at hc
        simp at hc
      · rcases List.mem_cons.mp hp2 with h2 | h3
        · rw [h2] at hc
          rw [List.mem_singleton.mp hc]
          exact List.mem_cons_self a rest
        · exact List.mem_cons_of_mem a (ih p h3 c hc)
    · simp only [reSplitParts, if_neg hs] at hp
      cases hps : reSplitParts rest with
      | nil =>
        rw [hps] at hp
        simp only [List.mem_singleton] at hp
        rw [hp] at hc
        rw [List.mem_singleton.mp hc]
        exact List.mem_cons_self a rest
      | cons q ps =>
        rw [hps] at hp
        rcases List.mem_cons.mp hp with h1 | h2
        · rw [h1] at hc
          rcases List.mem_cons.mp hc with hce | hcq
          · rw [hce]
            exact List.mem_cons_self a rest
          · have hq : q ∈ reSplitParts rest := by
              rw [hps]
              exact List.mem_cons_self q ps
            exact List.mem_cons_of_mem a (ih q hq c hcq)
        · have hmem : p ∈ reSplitParts rest := by
            rw [hps]
            exact List.mem_cons_of_mem q h2
          exact List.mem_cons_of_mem a (ih p hmem c hc)

theorem simpleScan_no_dot : ∀ (parts : List (List Char)), ['.'] ∉ parts →
    ∀ current depth acc, simpleScan parts current depth acc
      = (if pyStrip (current ++ parts.flatten) = [] then acc
         else pyStrip (current ++ parts.flatten) :: acc).reverse := by
  intro parts
  induction parts with
  | nil =>
    intro hd current depth acc
    simp [simpleScan]
  | cons p ps ih =>
    intro hd current depth acc
    have hdp : ['.'] ∉ ps := fun h => hd (List.mem_cons_of_mem p h)
    have hpne : p ≠ ['.'] := fun h => hd (by rw [← h]; exact List.mem_cons_self p ps)
    by_cases h1 : p = ['(']
    · simp only [simpleScan, if_pos h1]
      rw [ih hdp, h1]
      simp [List.append_assoc]
    · by_cases h2 : p = [')']
      · simp only [simpleScan, if_pos h2]
        rw [if_neg h1, ih hdp, h2]
        simp [List.append_assoc]
      · have h3 : ¬(p = ['.'] ∧ depth = 0) := fun hc => hpne hc.1
        simp only [simpleScan]
        rw [if_neg h1, if_neg h2, if_neg h3, ih hdp]
        simp [List.append_assoc]

theorem charAt_mem : ∀ (u : List Char) (i : Nat), i < u.length → charAt u i ∈ u := by
  intro u
  induction u with
  | nil =>
    intro i h
    simp at h
  | cons a rest ih =>
    intro i h
    cases i with
    | zero => exact List.mem_cons_self a rest
    | succ i =>
      have hrec := ih i (by simpa using h)
      exact List.mem_cons_of_mem a hrec

theorem scanSegsAux_no_term (u : List Char)
    (hterm : ∀ c ∈ u, isTerminator c = false) :
    ∀ (fuel : Nat) (stack : List Char) (start i : Nat),
      scanSegsAux u fuel stack start i = [(start, u.length)] := by
  intro fuel
  induction fuel with
  | zero => intro stack start i; rfl
  | succ fuel ih =>
    intro stack start i
    by_cases hi : i < u.length
    · have htm : isTerminator (charAt u i) = false := hterm _ (charAt_mem u i hi)
      by_cases hop : isOpener (charAt u i) = true
      · simp only [scanSegsAux]
        rw [if_pos hi, if_pos hop]
        exact ih _ _ _
      · by_cases hcl : isCloser (charAt u i) = true ∧ stack ≠ []
        · simp only [scanSegsAux]
          rw [if_pos hi, if_neg hop, if_pos hcl]
          exact ih _ _ _
        · have hbd : ¬(isTerminator (charAt u i) = true ∧ stack = [] ∧
              i + 1 < u.length ∧ charAt u (i + 1) = ' ' ∧
              findNonWsFrom u (i + 2) < u.length ∧
              pyIsUpper (charAt u (findNonWsFrom u (i + 2))) = true) := by
            rintro ⟨hc1, -⟩
            rw [htm] at hc1
            exact Bool.noConfusion hc1
          simp only [scanSegsAux]
          rw [if_pos hi, if_neg hop, if_neg hcl, if_neg hbd]
          exact ih _ _ _
    · simp only [scanSegsAux]
      rw [if_neg hi]

/-- C8: terminator characters inside bracketed runs never end a sentence:
for `"(A. B.) C."`, under both policies the result is the single sentence
`"(A. B.) C."` (the strict scanner fires no mid-text boundary at all, so the
only sentence end is after `"C."`), and under the simple policy
`"foo (bar. baz) qux."` yields exactly that one sentence. -/
theorem bracket_safety_examples :
    split_into_sentences ['(', 'A', '.', ' ', 'B', '.', ')', ' ', 'C', '.']
      = [['(', 'A', '.', ' ', 'B', '.', ')', ' ', 'C', '.']] ∧
    split_into_sentences_fix ['(', 'A', '.', ' ', 'B', '.', ')', ' ', 'C', '.']
      = [['(', 'A', '.', ' ', 'B', '.', ')', ' ', 'C', '.']] ∧
    split_sentences_strict ['(', 'A', '.', ' ', 'B', '.', ')', ' ', 'C', '.']
      = [['(', 'A', '.', ' ', 'B', '.', ')', ' ', 'C', '.']] ∧
    strict_boundary_positions ['(', 'A', '.', ' ', 'B', '.', ')', ' ', 'C', '.'] = [] ∧
    split_into_sentences
        ['f', 'o', 'o', ' ', '(', 'b', 'a', 'r', '.', ' ', 'b', 'a', 'z', ')',
         ' ', 'q', 'u', 'x', '.']
      = [['f', 'o', 'o', ' ', '(', 'b', 'a', 'r', '.', ' ', 'b', 'a', 'z', ')',
          ' ', 'q', 'u', 'x', '.']] :=
  ⟨by decide, by decide, by decide, by decide, by decide⟩

/-- C9 (amended): for every input text containing no terminator characters,
each splitter yields exactly one sentence — the newline-normalized text
trimmed of surrounding whitespace — provided that trim is non-empty; when
the text trims to empty (e.g. the empty text), it yields no sentences. -/
theorem no_terminator_single_sentence (t : List Char)
    (hterm : ∀ c ∈ t, isTerminator c = false) :
    (pyStrip (t.map normNewline) ≠ [] →
        split_into_sentences t = [pyStrip (t.map normNewline)] ∧
        split_into_sentences_fix t = [pyStrip (t.map normNewline)]) ∧
    (pyStrip (t.map normNewline) = [] →
        split_into_sentences t = [] ∧ split_into_sentences_fix t = []) := by
  have hterm' : ∀ c ∈ t.map normNewline, isTerminator c = false := by
    intro c hc
    obtain ⟨a, ha, hac⟩ := List.mem_map.mp hc
    rw [← hac]
    unfold normNewline
    by_cases han : a = '\n'
    · rw [if_pos han]
      decide
    · rw [if_neg han]
      exact hterm a ha
  have hstrict : split_into_sentences_fix t
      = if pyStrip (t.map normNewline) = [] then [] else [pyStrip (t.map normNewline)] := by
    unfold split_into_sentences_fix split_sentences_strict
    rw [scanSegsAux_no_term (t.map normNewline) hterm' _ _ _ _]
    have hslice : pySlice (t.map normNewline) 0 (t.map normNewline).length
        = t.map normNewline := by
      unfold pySlice
      simp
    simp only [List.map_cons, List.map_nil, hslice]
    by_cases he : pyStrip (t.map normNewline) = []
    · rw [if_pos he, he]
      rfl
    · rw [if_neg he]
      cases hps : pyStrip (t.map normNewline) with
      | nil => exact absurd hps he
      | cons a l => simp [List.filter]
  have hdotfree : ['.'] ∉ reSplitParts (t.map normNewline) := by
    intro h
    have hmem := reSplitParts_mem_subset (t.map normNewline) ['.'] h '.'
      (List.mem_singleton.mpr rfl)
    have h2 := hterm' '.' hmem
    exact absurd h2 (by decide)
  have hsimple : split_into_sentences t
      = if pyStrip (t.map normNewline) = [] then [] else [pyStrip (t.map normNewline)] := by
    unfold split_into_sentences
    rw [simpleScan_no_dot (reSplitParts (t.map normNewline)) hdotfree [] 0 [],
      reSplitParts_join (t.map normNewline)]
    simp only [List.nil_append]
    by_cases he : pyStrip (t.map normNewline) = []
    · rw [if_pos he]
      rfl
    · rw [if_neg he]
      rfl
  constructor
  · intro hne
    rw [hsimple, hstrict, if_neg hne]
    exact ⟨rfl, rfl⟩
  · intro he
    rw [hsimple, hstrict, if_pos he]
    exact ⟨rfl, rfl⟩

theorem no_terminator_witness :
    (pyStrip (['h', 'i'].map normNewline) ≠ [] →
        split_into_sentences ['h', 'i'] = [pyStrip (['h', 'i'].map normNewline)] ∧
        split_into_sentences_fix ['h', 'i'] = [pyStrip (['h', 'i'].map normNewline)]) ∧
    (pyStrip (['h', 'i'].map normNewline) = [] →
        split_into_sentences ['h', 'i'] = [] ∧ split_into_sentences_fix ['h', 'i'] = []) :=
  no_terminator_single_sentence ['h', 'i'] (by decide)

/-- C9 counterexample: the empty text contains no terminators yet both
splitters yield zero sentences (not one); and `"a\nb"` yields the single
sentence `"a b"` (the newline-normalized trim), which differs from the whole
original text trimmed of surrounding whitespace, `"a\nb"`. -/
theorem no_terminator_cex :
    split_into_sentences ([] : List Char) = [] ∧
    split_into_sentences_fix ([] : List Char) = [] ∧
    split_into_sentences ['a', '\n', 'b'] = [['a', ' ', 'b']] ∧
    split_into_sentences_fix ['a', '\n', 'b'] = [['a', ' ', 'b']] ∧
    pyStrip ['a', '\n', 'b'] = ['a', '\n', 'b'] ∧
    (['a', ' ', 'b'] : List Char) ≠ ['a', '\n', 'b'] :=
  ⟨by decide, by decide, by decide, by decide, by decide, by decide⟩

/-! ### Sentence char spans

`sentence_char_spans_in_chunk` of pipeline_chunk_subchunk_sentence.py:
sequential accumulation of `(char_start, char_end_exclusive)` spans, using
`chunk_text.find(s, pos)` and the contiguity fallback `idx = pos` when the
search fails. -/

/-- Model of Python `hay.find(needle, i)` scanning candidate positions
upward; `none` models `-1`.  Structural fuel (`hay.length + 1` from the top)
covers every candidate position. -/
def pyFindAux (hay needle : List Char) : Nat → Nat → Option Nat
  | 0, _ => none
  | fuel + 1, i =>
    if i + needle.length ≤ hay.length then
      if (hay.drop i).take needle.length = needle then some i
      else pyFindAux hay needle fuel (i + 1)
    else none

def pyFind (hay needle : List Char) (start : Nat) : Option Nat :=
  pyFindAux hay needle (hay.length + 1) start

/-- `idx = hay.find(needle, pos)` with the fallback `idx = pos` on failure. -/
def pyFindOr (hay needle : List Char) (pos : Nat) : Nat :=
  match pyFind hay needle pos with
  | some k => k
  | none => pos

def sentence_char_spans_aux (chunkText : List Char) :
    Nat → List (List Char) → List (Nat × Nat)
  | _, [] => []
  | pos, s :: rest =>
    if pyStrip s = [] then (pos, pos) :: sentence_char_spans_aux chunkText pos rest
    else
      (pyFindOr chunkText (pyStrip s) pos,
       pyFindOr chunkText (pyStrip s) pos + (pyStrip s).length) ::
        sentence_char_spans_aux chunkText
          (pyFindOr chunkText (pyStrip s) pos + (pyStrip s).length) rest

/-- `sentence_char_spans_in_chunk(chunk_text, sentences)` of
pipeline_chunk_subchunk_sentence.py. -/
def sentence_char_spans_in_chunk (chunkText : List Char)
    (sentences : List (List Char)) : List (Nat × Nat) :=
  sentence_char_spans_aux chunkText 0 sentences

theorem pyFindAux_ge (hay needle : List Char) :
    ∀ fuel i k, pyFindAux hay needle fuel i = some k → i ≤ k := by
  intro fuel
  induction fuel with
  | zero =>
    intro i k h
    exact Option.noConfusion h
  | succ fuel ih =>
    intro i k h
    simp only [pyFindAux] at h
    by_cases h1 : i + needle.length ≤ hay.length
    · rw [if_pos h1] at h
      by_cases h2 : (hay.drop i).take needle.length = needle
      · rw [if_pos h2] at h
        have := Option.some.inj h
        omega
      · rw [if_neg h2] at h
        have := ih (i + 1) k h
        omega
    · rw [if_neg h1] at h
      exact Option.noConfusion h

theorem pyFindOr_ge (hay needle : List Char) (pos : Nat) :
    pos ≤ pyFindOr hay needle pos := by
  unfold pyFindOr
  cases hf : pyFind hay needle pos with
  | none => exact Nat.le_refl pos
  | some k => exact pyFindAux_ge hay needle _ pos k hf

theorem sentence_char_spans_aux_lb (c : List Char) :
    ∀ (ss : List (List Char)) (pos : Nat),
      ∀ p ∈ sentence_char_spans_aux c pos ss, pos ≤ p.1 ∧ p.1 ≤ p.2 := by
  intro ss
  induction ss with
  | nil =>
    intro pos p hp
    simp [sentence_char_spans_aux] at hp
  | cons s rest ih =>
    intro pos p hp
    by_cases he : pyStrip s = []
    · simp only [sentence_char_spans_aux, if_pos he] at hp
      rcases List.mem_cons.mp hp with h1 | h2
      · rw [h1]
        exact ⟨Nat.le_refl _, Nat.le_refl _⟩
      · exact ih pos p h2
    · simp only [sentence_char_spans_aux, if_neg he] at hp
      rcases List.mem_cons.mp hp with h1 | h2
      · rw [h1]
        exact ⟨pyFindOr_ge c (pyStrip s) pos, Nat.le_add_right _ _⟩
      · have hrec := ih (pyFindOr c (pyStrip s) pos + (pyStrip s).length) p h2
        have := pyFindOr_ge c (pyStrip s) pos
        exact ⟨by omega, hrec.2⟩

theorem sentence_char_spans_aux_chain (c : List Char) :
    ∀ (ss : List (List Char)) (pos k : Nat) (p q : Nat × Nat),
      (sentence_char_spans_aux c pos ss).get? k = some p →
      (sentence_char_spans_aux c pos ss).get? (k + 1) = some q → p.2 ≤ q.1 := by
  intro ss
  induction ss with
  | nil =>
    intro pos k p q hp hq
    simp [sentence_char_spans_aux] at hp
  | cons s rest ih =>
    intro pos k p q hp hq
    by_cases he : pyStrip s = []
    · simp only [sentence_char_spans_aux, if_pos he] at hp hq
      cases k with
      | zero =>
        rw [List.get?_cons_zero] at hp
        rw [List.get?_cons_succ] at hq
        have hqmem : q ∈ sentence_char_spans_aux c pos rest := List.get?_mem hq
        have hlb := (sentence_char_spans_aux_lb c rest pos q hqmem).1
        have hp' := Option.some.inj hp
        rw [← hp']
        exact hlb
      | succ k =>
        rw [List.get?_cons_succ] at hp hq
        exact ih pos k p q hp hq
    · simp only [sentence_char_spans_aux, if_neg he] at hp hq
      cases k with
      | zero =>
        rw [List.get?_cons_zero] at hp
        rw [List.get?_cons_succ] at hq
        have hqmem : q ∈ sentence_char_spans_aux c
            (pyFindOr c (pyStrip s) pos + (pyStrip s).length) rest := List.get?_mem hq
        have hlb := (sentence_char_spans_aux_lb c rest _ q hqmem).1
        have hp' := Option.some.inj hp
        rw [← hp']
        exact hlb
      | succ k =>
        rw [List.get?_cons_succ] at hp hq
        exact ih _ k p q hp hq

theorem sentence_char_spans_aux_pos (c : List Char) :
    ∀ (ss : List (List Char)) (pos : Nat), (∀ s ∈ ss, pyStrip s ≠ []) →
      ∀ p ∈ sentence_char_spans_aux c pos ss, p.1 < p.2 := by
  intro ss
  induction ss with
  | nil =>
    intro pos hne p hp
    simp [sentence_char_spans_aux] at hp
  | cons s rest ih =>
    intro pos hne p hp
    have hs : pyStrip s ≠ [] := hne s (List.mem_cons_self s rest)
    simp only [sentence_char_spans_aux, if_neg hs] at hp
    rcases List.mem_cons.mp hp with h1 | h2
    · rw [h1]
      have hlen : 0 < (pyStrip s).length := List.length_pos.mpr hs
      omega
    · exact ih _ (fun x hx => hne x (List.mem_cons_of_mem s hx)) p h2

/-- `st = chunk_text.find(s, cursor); if st == -1: st = chunk_text.find(s)`
from `process_file` of build_chunks_subchunks_sentences_fix.py: search from
the cursor, restart from 0 on failure, `-1` when the sentence does not occur
at all. -/
def pyFindFallback (hay needle : List Char) (cursor : Nat) : Int :=
  match pyFind hay needle cursor with
  | some k => (k : Int)
  | none =>
    match pyFind hay needle 0 with
    | some k => (k : Int)
    | none => -1

/-- The sentence char-position loop of `process_file` in
build_chunks_subchunks_sentences_fix.py (the span computation the sentences
CSV records): skip sentences that strip to empty; `st` via `find` with the
restart-from-zero fallback (so `-1` when absent); inclusive end
`en = st + len(s) - 1`; `cursor = en + 1`.  Since `st ≥ -1` and stripped
sentences are non-empty, `en + 1 = st + len(s) ≥ 0`, so the `.toNat` on the
next cursor is exact. -/
def sent_char_positions_fix (chunkText : List Char) :
    Nat → List (List Char) → List (Int × Int)
  | _, [] => []
  | cursor, s :: rest =>
    if pyStrip s = [] then sent_char_positions_fix chunkText cursor rest
    else
      (pyFindFallback chunkText (pyStrip s) cursor,
       pyFindFallback chunkText (pyStrip s) cursor + ((pyStrip s).length : Int) - 1) ::
        sent_char_positions_fix chunkText
          ((pyFindFallback chunkText (pyStrip s) cursor
            + ((pyStrip s).length : Int)).toNat)
          rest

/-- The forward searches all succeed: at every step of the fix variant's
loop, `chunk_text.find(s, cursor)` finds the (stripped, non-empty) sentence
at or after the running cursor, so the fallback never engages. -/
def findOk (chunkText : List Char) : Nat → List (List Char) → Bool
  | _, [] => true
  | cursor, s :: rest =>
    if pyStrip s = [] then findOk chunkText cursor rest
    else
      (pyFind chunkText (pyStrip s) cursor).isSome &&
        findOk chunkText
          ((pyFindFallback chunkText (pyStrip s) cursor
            + ((pyStrip s).length : Int)).toNat)
          rest

theorem pyFind_isSome_spec (hay nd : List Char) (cursor : Nat)
    (h : (pyFind hay nd cursor).isSome = true) :
    ∃ k, pyFind hay nd cursor = some k ∧ cursor ≤ k ∧
      pyFindFallback hay nd cursor = (k : Int) := by
  cases hf : pyFind hay nd cursor with
  | none =>
    rw [hf] at h
    exact Bool.noConfusion h
  | some k =>
    refine ⟨k, rfl, pyFindAux_ge hay nd _ cursor k hf, ?_⟩
    simp [pyFindFallback, hf]

theorem sent_char_positions_fix_lb (c : List Char) :
    ∀ (ss : List (List Char)) (cursor : Nat), findOk c cursor ss = true →
      ∀ p ∈ sent_char_positions_fix c cursor ss,
        (cursor : Int) ≤ p.1 ∧ p.1 ≤ p.2 := by
  intro ss
  induction ss with
  | nil =>
    intro cursor hok p hp
    simp [sent_char_positions_fix] at hp
  | cons s rest ih =>
    intro cursor hok p hp
    by_cases he : pyStrip s = []
    · simp only [sent_char_positions_fix, if_pos he] at hp
      simp only [findOk, if_pos he] at hok
      exact ih cursor hok p hp
    · simp only [sent_char_positions_fix, if_neg he] at hp
      simp only [findOk, if_neg he, Bool.and_eq_true] at hok
      obtain ⟨hsome, hok'⟩ := hok
      obtain ⟨k0, hf, hck, hfb⟩ := pyFind_isSome_spec c (pyStrip s) cursor hsome
      have hL : 0 < (pyStrip s).length := List.length_pos.mpr he
      rcases List.mem_cons.mp hp with h1 | h2
      · rw [h1, hfb]
        refine ⟨?_, ?_⟩
        · show (cursor : Int) ≤ (k0 : Int)
          exact_mod_cast hck
        · show (k0 : Int) ≤ (k0 : Int) + ((pyStrip s).length : Int) - 1
          omega
      · have hrec := ih _ hok' p h2
        rw [hfb] at hrec
        refine ⟨?_, hrec.2⟩
        have h1 := hrec.1
        omega

theorem sent_char_positions_fix_chain (c : List Char) :
    ∀ (ss : List (List Char)) (cursor k : Nat) (p q : Int × Int),
      findOk c cursor ss = true →
      (sent_char_positions_fix c cursor ss).get? k = some p →
      (sent_char_positions_fix c cursor ss).get? (k + 1) = some q →
      p.2 < q.1 := by
  intro ss
  induction ss with
  | nil =>
    intro cursor k p q hok hp hq
    simp [sent_char_positions_fix] at hp
  | cons s rest ih =>
    intro cursor k p q hok hp hq
    by_cases he : pyStrip s = []
    · simp only [sent_char_positions_fix, if_pos he] at hp hq
      simp only [findOk, if_pos he] at hok
      exact ih cursor k p q hok hp hq
    · simp only [sent_char_positions_fix, if_neg he] at hp hq
      simp only [findOk, if_neg he, Bool.and_eq_true] at hok
      obtain ⟨hsome, hok'⟩ := hok
      obtain ⟨k0, hf, hck, hfb⟩ := pyFind_isSome_spec c (pyStrip s) cursor hsome
      have hL : 0 < (pyStrip s).length := List.length_pos.mpr he
      cases k with
      | zero =>
        rw [List.get?_cons_zero] at hp
        rw [List.get?_cons_succ] at hq
        have hqmem : q ∈ sent_char_positions_fix c
            ((pyFindFallback c (pyStrip s) cursor
              + ((pyStrip s).length : Int)).toNat) rest := List.get?_mem hq
        have hlb := (sent_char_positions_fix_lb c rest _ hok' q hqmem).1
        have hp' := Option.some.inj hp
        rw [← hp']
        rw [hfb] at hlb ⊢
        show (k0 : Int) + ((pyStrip s).length : Int) - 1 < q.1
        omega
      | succ k =>
        rw [List.get?_cons_succ] at hp hq
        exact ih _ k p q hok' hp hq

/-- C4 (amended): within a chunk, the char spans computed for the chunk's
sentences by `sentence_char_spans_in_chunk`
(pipeline_chunk_subchunk_sentence.py, whose find-failure fallback keeps the
running position) are unconditionally non-overlapping and ordered — each
later span starts at or after the earlier span's exclusive end — and
strictly increasing when every sentence strips non-empty, as the splitters
guarantee; for the fix variant's span loop (`process_file` of
build_chunks_subchunks_sentences_fix.py, with inclusive ends and a
restart-from-zero find fallback) the invariant holds whenever every
sentence is found at or after the running cursor (`findOk`): then every
span is well-formed with non-negative start and each later span starts
strictly after the earlier span's inclusive end.  When a sentence is absent
from the chunk text the fix variant emits spans starting at `-1` and the
invariant can fail. -/
theorem sentence_char_spans_monotone (chunkText : List Char)
    (sentences : List (List Char)) :
    (∀ k p q, (sentence_char_spans_in_chunk chunkText sentences).get? k = some p →
        (sentence_char_spans_in_chunk chunkText sentences).get? (k + 1) = some q →
        p.2 ≤ q.1) ∧
    (∀ p ∈ sentence_char_spans_in_chunk chunkText sentences, p.1 ≤ p.2) ∧
    ((∀ s ∈ sentences, pyStrip s ≠ []) →
        ∀ p ∈ sentence_char_spans_in_chunk chunkText sentences, p.1 < p.2) ∧
    (findOk chunkText 0 sentences = true →
      (∀ p ∈ sent_char_positions_fix chunkText 0 sentences,
          (0 : Int) ≤ p.1 ∧ p.1 ≤ p.2) ∧
      (∀ k p q, (sent_char_positions_fix chunkText 0 sentences).get? k = some p →
          (sent_char_positions_fix chunkText 0 sentences).get? (k + 1) = some q →
          p.2 < q.1)) :=
  ⟨fun k p q hp hq => sentence_char_spans_aux_chain chunkText sentences 0 k p q hp hq,
   fun p hp => (sentence_char_spans_aux_lb chunkText sentences 0 p hp).2,
   fun hne p hp => sentence_char_spans_aux_pos chunkText sentences 0 hne p hp,
   fun hok =>
     ⟨fun p hp => by
        have hlb := sent_char_positions_fix_lb chunkText sentences 0 hok p hp
        exact ⟨by exact_mod_cast hlb.1, hlb.2⟩,
      fun k p q hp hq =>
        sent_char_positions_fix_chain chunkText sentences 0 k p q hok hp hq⟩⟩

theorem sentence_char_spans_monotone_witness :
    ((0, 3) : Nat × Nat).1 < ((0, 3) : Nat × Nat).2 ∧
    ((0 : Int) ≤ (((0 : Int), (2 : Int)) : Int × Int).1 ∧
      (((0 : Int), (2 : Int)) : Int × Int).1 ≤ (((0 : Int), (2 : Int)) : Int × Int).2) :=
  ⟨(sentence_char_spans_monotone ['H', 'i', '.', ' ', 'Y', 'o', '.']
      [['H', 'i', '.'], ['Y', 'o', '.']]).2.2.1 (by decide) (0, 3) (by decide),
   ((sentence_char_spans_monotone ['H', 'i', '.', ' ', 'Y', 'o', '.']
      [['H', 'i', '.'], ['Y', 'o', '.']]).2.2.2 (by decide)).1 ((0 : Int), (2 : Int))
      (by decide)⟩

/-- C4 counterexample: on the chunk text `"A\nb. C\nd"` (newlines survive in
the chunk text under the tiktoken configuration, but the splitter normalizes
them to spaces) the fix variant's own splitter yields `"A b."` and `"C d"`,
neither of which occurs in the chunk text; both finds fail, so the span loop
of `process_file` (build_chunks_subchunks_sentences_fix.py) computes the
spans `(-1, 2)` and `(-1, 1)`: the later sentence's start `-1` lies before
the earlier sentence's end `2`, refuting the claimed strictly-increasing,
non-overlapping invariant for that cited variant. -/
theorem char_span_fix_overlap_cex :
    split_into_sentences_fix ['A', '\n', 'b', '.', ' ', 'C', '\n', 'd']
      = [['A', ' ', 'b', '.'], ['C', ' ', 'd']] ∧
    sent_char_positions_fix ['A', '\n', 'b', '.', ' ', 'C', '\n', 'd'] 0
        (split_into_sentences_fix ['A', '\n', 'b', '.', ' ', 'C', '\n', 'd'])
      = [(-1, 2), (-1, 1)] ∧
    ¬((2 : Int) ≤ -1) :=
  ⟨by decide, by decide, by decide⟩

/-! ### Anchor Resolver -/

/-- `find_subchunk_id_by_char(char_pos, subchunks_char_ranges)` of
build_chunks_subchunks_sentences.py / _fix.py: the first
`(sid, cstart, cend)` with `cstart ≤ char_pos ≤ cend` (inclusive bounds),
`None` when no range contains the position. -/
def find_subchunk_id_by_char (charPos : Int) :
    List (String × Int × Int) → Option String
  | [] => none
  | (sid, cstart, cend) :: rest =>
    if cstart ≤ charPos ∧ charPos ≤ cend then some sid
    else find_subchunk_id_by_char charPos rest

/-- The spec's anchoring example ranges `[(0,9),(10,19)]` (inclusive). -/
def exampleRanges : List (String × Int × Int) :=
  [("sc_000001_001", 0, 9), ("sc_000001_002", 10, 19)]

/-- C5: the Anchor Resolver returns the id of the first range containing the
offset (it is exactly `find?` over the containment test) and `None` exactly
when no range contains it; on ranges `[(0,9),(10,19)]`, offset 5 resolves to
the first range, 12 to the second, and 25 to `None` (Unanchored). -/
theorem find_subchunk_first_match :
    (∀ (charPos : Int) (rs : List (String × Int × Int)),
        find_subchunk_id_by_char charPos rs
          = (rs.find? (fun r => decide (r.2.1 ≤ charPos ∧ charPos ≤ r.2.2))).map
              Prod.fst) ∧
    (∀ (charPos : Int) (rs : List (String × Int × Int)),
        find_subchunk_id_by_char charPos rs = none ↔
          ∀ r ∈ rs, ¬(r.2.1 ≤ charPos ∧ charPos ≤ r.2.2)) ∧
    find_subchunk_id_by_char 5 exampleRanges = some "sc_000001_001" ∧
    find_subchunk_id_by_char 12 exampleRanges = some "sc_000001_002" ∧
    find_subchunk_id_by_char 25 exampleRanges = none := by
  refine ⟨?_, ?_, by decide, by decide, by decide⟩
  · intro charPos rs
    induction rs with
    | nil => rfl
    | cons r rest ih =>
      obtain ⟨sid, cs, ce⟩ := r
      by_cases hc : cs ≤ charPos ∧ charPos ≤ ce
      · simp only [find_subchunk_id_by_char, if_pos hc]
        rw [List.find?_cons_of_pos _ (by simp only [decide_eq_true_eq]; exact hc)]
        rfl
      · simp only [find_subchunk_id_by_char, if_neg hc]
        rw [List.find?_cons_of_neg _ (by simp only [decide_eq_true_eq]; exact hc)]
        exact ih
  · intro charPos rs
    induction rs with
    | nil =>
      simp [find_subchunk_id_by_char]
    | cons r rest ih =>
      obtain ⟨sid, cs, ce⟩ := r
      by_cases hc : cs ≤ charPos ∧ charPos ≤ ce
      · simp only [find_subchunk_id_by_char, if_pos hc]
        constructor
        · intro h
          exact Option.noConfusion h
        · intro h
          exact absurd hc (h (sid, cs, ce) (List.mem_cons_self _ _))
      · simp only [find_subchunk_id_by_char, if_neg hc]
        constructor
        · intro h r hr
          rcases List.mem_cons.mp hr with h1 | h2
          · rw [h1]
            exact hc
          · exact (ih.mp h) r h2
        · intro h
          exact ih.mpr (fun r hr => h r (List.mem_cons_of_mem _ hr))

theorem find_subchunk_first_match_witness :
    find_subchunk_id_by_char 7 [("sc_000001_001", 0, 9)]
      = ([("sc_000001_001", (0 : Int), (9 : Int))].find?
          (fun r => decide (r.2.1 ≤ (7 : Int) ∧ (7 : Int) ≤ r.2.2))).map Prod.fst :=
  find_subchunk_first_match.1 7 [("sc_000001_001", 0, 9)]

/-! ### Token-pointer anchoring -/

/-- The sentence → sub-chunk mapping of single_chunk_subchunk_sentence.py
(and, identically, pipeline_chunk_subchunk_sentence.py): walk the sentences
carrying a running token pointer; each sentence gets
`sub_ids[max(0, min(n_sub - 1, token_ptr // SUBCHUNK_TOKENS))]` when the
chunk has at least one sub-chunk and `None` otherwise, and the pointer then
advances by the sentence's token count. -/
def anchor_sentences_by_token_ptr (subIds : List String) (size : Nat) :
    Nat → List Nat → List (Option String)
  | _, [] => []
  | ptr, tc :: rest =>
    (if subIds.isEmpty then none
     else subIds.get? (max 0 (min (subIds.length - 1) (ptr / size)))) ::
      anchor_sentences_by_token_ptr subIds size (ptr + tc) rest

/-- C10: in the token-pointer anchoring variants, whenever a chunk has at
least one sub-chunk, every sentence is assigned some sub-chunk id (one of the
chunk's own sub-chunk ids): the clamped index always lands in
`[0, n_sub - 1]`, so no sentence is left unanchored. -/
theorem token_ptr_anchor_total (subIds : List String) (size ptr : Nat)
    (tcs : List Nat) (hne : subIds ≠ []) :
    ∀ o ∈ anchor_sentences_by_token_ptr subIds size ptr tcs,
      ∃ sid, o = some sid ∧ sid ∈ subIds := by
  induction tcs generalizing ptr with
  | nil =>
    intro o ho
    simp [anchor_sentences_by_token_ptr] at ho
  | cons tc rest ih =>
    intro o ho
    simp only [anchor_sentences_by_token_ptr] at ho
    rcases List.mem_cons.mp ho with h1 | h2
    · have hlen : 0 < subIds.length := List.length_pos.mpr hne
      have hidx : max 0 (min (subIds.length - 1) (ptr / size)) < subIds.length := by
        have hmin : min (subIds.length - 1) (ptr / size) ≤ subIds.length - 1 :=
          Nat.min_le_left _ _
        omega
      have hemp : subIds.isEmpty = false := by
        cases subIds with
        | nil => exact absurd rfl hne
        | cons a l => rfl
      refine ⟨subIds.get ⟨_, hidx⟩, ?_, List.get_mem _ _ _⟩
      rw [h1, if_neg (by simp [hemp])]
      exact List.get?_eq_get hidx
    · exact ih (ptr + tc) o h2

theorem token_ptr_anchor_total_witness :
    ∃ sid, some "sc_000001_001" = some sid ∧ sid ∈ ["sc_000001_001"] :=
  token_ptr_anchor_total ["sc_000001_001"] 200 0 [5] (by decide)
    (some "sc_000001_001") (by decide)

/-! ### ID Assigner

`process_file` of build_chunks_subchunks_sentences_fix.py formats
`chunk_id = f"chunk_{idx:06d}"`, `subchunk_id = f"sc_{idx:06d}_{order:03d}"`
and `sentence_id = f"s_{idx:06d}_{sub:03d}_{order:03d}"`, with the reserved
sentinel `000` in place of the sub-chunk ordinal for unanchored sentences;
`idx` runs from the caller-owned `chunk_base_index` upward. -/

/-- Decimal digits of `x` (no leading zeros), with structural fuel
(`x + 1` from the top is always sufficient). -/
def decDigitsAux : Nat → Nat → List Char
  | 0, _ => []
  | fuel + 1, x =>
    if x < 10 then [Char.ofNat (48 + x)]
    else decDigitsAux fuel (x / 10) ++ [Char.ofNat (48 + x % 10)]

def decDigits (x : Nat) : List Char :=
  decDigitsAux (x + 1) x

/-- `f"{x:0{w}d}"`: the decimal digits of `x`, zero-padded to width `w`. -/
def padNum (w x : Nat) : List Char :=
  List.replicate (w - (decDigits x).length) '0' ++ decDigits x

def chunk_id_chars (idx : Nat) : List Char :=
  'c' :: 'h' :: 'u' :: 'n' :: 'k' :: '_' :: padNum 6 idx

def subchunk_id_chars (idx ord : Nat) : List Char :=
  's' :: 'c' :: '_' :: (padNum 6 idx ++ '_' :: padNum 3 ord)

def sentence_id_chars (idx : Nat) (anchored : Bool) (subOrd sOrd : Nat) : List Char :=
  's' :: '_' :: (padNum 6 idx ++
    '_' :: ((if anchored then padNum 3 subOrd else padNum 3 0) ++ '_' :: padNum 3 sOrd))

/-- The id triple emitted for the `kInFile`-th chunk (1-based) of a file
processed with `chunk_base_index = base`: `process_file` numbers chunks
`base, base + 1, …`, so the absolute chunk ordinal is `base + kInFile - 1`. -/
def assign_ids (base kInFile subOrd sentOrd : Nat) (anchored : Bool) :
    List Char × List Char × List Char :=
  (chunk_id_chars (base + kInFile - 1),
   subchunk_id_chars (base + kInFile - 1) subOrd,
   sentence_id_chars (base + kInFile - 1) anchored subOrd sentOrd)

/-- Reading a digit string back as a number (leading zeros are harmless). -/
def fromDec (s : List Char) : Nat :=
  s.foldl (fun a c => a * 10 + (c.toNat - 48)) 0

theorem char_ofNat_toNat_digit (d : Nat) (h : d < 10) :
    (Char.ofNat (48 + d)).toNat = 48 + d := by
  interval_cases d <;> decide

theorem fromDec_append_digit (l : List Char) (c : Char) :
    fromDec (l ++ [c]) = fromDec l * 10 + (c.toNat - 48) := by
  unfold fromDec
  rw [List.foldl_append]
  rfl

theorem fromDec_decDigitsAux : ∀ fuel x, x < fuel →
    fromDec (decDigitsAux fuel x) = x := by
  intro fuel
  induction fuel with
  | zero =>
    intro x h
    omega
  | succ fuel ih =>
    intro x h
    by_cases hx : x < 10
    · simp only [decDigitsAux, if_pos hx]
      unfold fromDec
      simp only [List.foldl_cons, List.foldl_nil]
      rw [char_ofNat_toNat_digit x hx]
      omega
    · simp only [decDigitsAux, if_neg hx]
      rw [fromDec_append_digit]
      have hlt : x / 10 < x := Nat.div_lt_self (by omega) (by omega)
      rw [ih (x / 10) (by omega), char_ofNat_toNat_digit (x % 10) (Nat.mod_lt x (by omega))]
      have := Nat.div_add_mod x 10
      omega

theorem fromDec_decDigits (x : Nat) : fromDec (decDigits x) = x :=
  fromDec_decDigitsAux (x + 1) x (by omega)

theorem fromDec_replicate_zero (k : Nat) (l : List Char) :
    fromDec (List.replicate k '0' ++ l) = fromDec l := by
  induction k with
  | zero => rfl
  | succ k ih =>
    rw [List.replicate_succ, List.cons_append]
    unfold fromDec at ih ⊢
    simp only [List.foldl_cons]
    have h0 : (0 : Nat) * 10 + (('0' : Char).toNat - 48) = 0 := by decide
    rw [h0]
    exact ih

theorem fromDec_padNum (w x : Nat) : fromDec (padNum w x) = x := by
  unfold padNum
  rw [fromDec_replicate_zero, fromDec_decDigits]

theorem padNum_inj (w a b : Nat) (h : padNum w a = padNum w b) : a = b := by
  have hf := congrArg fromDec h
  rwa [fromDec_padNum, fromDec_padNum] at hf

theorem decDigitsAux_no_underscore : ∀ fuel x c, c ∈ decDigitsAux fuel x → c ≠ '_' := by
  intro fuel
  induction fuel with
  | zero =>
    intro x c hc
    simp [decDigitsAux] at hc
  | succ fuel ih =>
    intro x c hc
    by_cases hx : x < 10
    · simp only [decDigitsAux, if_pos hx, List.mem_singleton] at hc
      rw [hc]
      intro he
      have hv := congrArg Char.toNat he
      rw [char_ofNat_toNat_digit x hx] at hv
      have h95 : ('_' : Char).toNat = 95 := by decide
      omega
    · simp only [decDigitsAux, if_neg hx] at hc
      rcases List.mem_append.mp hc with h1 | h2
      · exact ih (x / 10) c h1
      · rw [List.mem_singleton.mp h2]
        intro he
        have hv := congrArg Char.toNat he
        rw [char_ofNat_toNat_digit (x % 10) (Nat.mod_lt x (by omega))] at hv
        have h95 : ('_' : Char).toNat = 95 := by decide
        have := Nat.mod_lt x (show 0 < 10 by omega)
        omega

theorem padNum_no_underscore (w x : Nat) : '_' ∉ padNum w x := by
  intro h
  rcases List.mem_append.mp h with h1 | h2
  · have := List.eq_of_mem_replicate h1
    exact absurd this (by decide)
  · exact decDigitsAux_no_underscore _ _ _ h2 rfl

theorem underscore_split :
    ∀ (u v x y : List Char), '_' ∉ u → '_' ∉ v →
      u ++ '_' :: x = v ++ '_' :: y → u = v ∧ x = y := by
  intro u
  induction u with
  | nil =>
    intro v x y hu hv h
    cases v with
    | nil =>
      simp only [List.nil_append, List.cons.injEq, true_and] at h
      exact ⟨rfl, h⟩
    | cons b v' =>
      simp only [List.nil_append, List.cons_append] at h
      injection h with h1 h2
      exact absurd (by rw [← h1]; exact List.mem_cons_self '_' v') hv
  | cons a u' ih =>
    intro v x y hu hv h
    cases v with
    | nil =>
      simp only [List.cons_append, List.nil_append] at h
      injection h with h1 h2
      exact absurd (by rw [h1]; exact List.mem_cons_self '_' u') hu
    | cons b v' =>
      simp only [List.cons_append] at h
      injection h with h1 h2
      have hu' : '_' ∉ u' := fun hm => hu (List.mem_cons_of_mem _ hm)
      have hv' : '_' ∉ v' := fun hm => hv (List.mem_cons_of_mem _ hm)
      obtain ⟨he, hxy⟩ := ih v' x y hu' hv' h2
      exact ⟨by rw [h1, he], hxy⟩

/-- C6 (amended): id assignment is a pure function of the absolute chunk
ordinal `base + kInFile - 1` together with the sub-chunk ordinal, sentence
ordinal and anchored flag: tuples with the same `base + kInFile` yield
identical strings, and the id strings are injective in the absolute ordinal,
the ordinals and the flag (anchored sentences carry their 1-based sub-chunk
ordinal, unanchored ones the reserved sentinel `000`). -/
theorem assign_ids_injective :
    (∀ b k b' k' s t a, b + k = b' + k' →
        assign_ids b k s t a = assign_ids b' k' s t a) ∧
    (∀ i i', chunk_id_chars i = chunk_id_chars i' → i = i') ∧
    (∀ i o i' o', subchunk_id_chars i o = subchunk_id_chars i' o' →
        i = i' ∧ o = o') ∧
    (∀ i a s t i' a' s' t', (a = true → 1 ≤ s) → (a' = true → 1 ≤ s') →
        sentence_id_chars i a s t = sentence_id_chars i' a' s' t' →
        i = i' ∧ a = a' ∧ (a = true → s = s') ∧ t = t') := by
  refine ⟨?_, ?_, ?_, ?_⟩
  · intro b k b' k' s t a h
    unfold assign_ids
    have he : b + k - 1 = b' + k' - 1 := by omega
    rw [he]
  · intro i i' h
    unfold chunk_id_chars at h
    injection h with h1 h
    injection h with h1 h
    injection h with h1 h
    injection h with h1 h
    injection h with h1 h
    injection h with h1 h
    exact padNum_inj 6 i i' h
  · intro i o i' o' h
    unfold subchunk_id_chars at h
    injection h with h1 h
    injection h with h1 h
    injection h with h1 h
    obtain ⟨hi, ho⟩ := underscore_split _ _ _ _
      (padNum_no_underscore 6 i) (padNum_no_underscore 6 i') h
    exact ⟨padNum_inj 6 i i' hi, padNum_inj 3 o o' ho⟩
  · intro i a s t i' a' s' t' hs hs' h
    unfold sentence_id_chars at h
    injection h with h1 h
    injection h with h1 h
    obtain ⟨hi, hrest⟩ := underscore_split _ _ _ _
      (padNum_no_underscore 6 i) (padNum_no_underscore 6 i') h
    have hnu : '_' ∉ (if a = true then padNum 3 s else padNum 3 0) := by
      cases a
      · simp only [Bool.false_eq_true, if_neg]
        exact padNum_no_underscore 3 0
      · simp only [if_pos]
        exact padNum_no_underscore 3 s
    have hnu' : '_' ∉ (if a' = true then padNum 3 s' else padNum 3 0) := by
      cases a'
      · simp only [Bool.false_eq_true, if_neg]
        exact padNum_no_underscore 3 0
      · simp only [if_pos]
        exact padNum_no_underscore 3 s'
    obtain ⟨hsub, ht⟩ := underscore_split _ _ _ _ hnu hnu' hrest
    refine ⟨padNum_inj 6 i i' hi, ?_, ?_, padNum_inj 3 t t' ht⟩
    · cases a <;> cases a'
      · rfl
      · exfalso
        simp only [Bool.false_eq_true, if_neg, if_pos] at hsub
        have h0 := padNum_inj 3 0 s' hsub
        have := hs' rfl
        omega
      · exfalso
        simp only [Bool.false_eq_true, if_neg, if_pos] at hsub
        have h0 := padNum_inj 3 s 0 hsub
        have := hs rfl
        omega
      · rfl
    · intro ha
      rw [ha] at hsub
      cases a'
      · exfalso
        rw [ha] at hs
        simp only [if_pos rfl, Bool.false_eq_true, if_neg] at hsub
        have h0 := padNum_inj 3 s 0 hsub
        have := hs rfl
        omega
      · simp only [if_pos rfl] at hsub
        exact padNum_inj 3 s s' hsub

theorem assign_ids_injective_witness :
    3 = 3 ∧ true = true ∧ (true = true → 1 = 1) ∧ 2 = 2 :=
  assign_ids_injective.2.2.2 3 true 1 2 3 true 1 2 (fun _ => by omega)
    (fun _ => by omega) rfl

/-- C6 counterexample: the ordinal tuples `(base 1, chunk-in-file 3)` and
`(base 2, chunk-in-file 2)` are distinct, yet both denote absolute chunk
ordinal 3 and receive identical id strings: the ids are a function of
`base + ordinal`, not injective in the split tuple the claim quantifies
over. -/
theorem assign_ids_base_split_cex :
    assign_ids 1 3 1 1 true = assign_ids 2 2 1 1 true ∧
    ((1, 3) : Nat × Nat) ≠ (2, 2) :=
  ⟨rfl, by decide⟩

/-! ### Non-positive window sizes

What the two slicers actually do when `size ≤ 0`:
`slice_ranges` of build_chunks_subchunks_sentences_fix.py delegates to
Python `range(0, n, size)` — a `ValueError` for `size = 0` and an *empty*
range (hence an empty span list, no error) for `size < 0` — while
`slice_ranges` of scripts/build_chunks_subchunks_sentences.py is a
`while start < n: … start += size` loop that never terminates for
`size ≤ 0` when `n > 0`. -/

/-- Model of Python `range(start, stop, step)` over the integers: `none`
models the `ValueError` raised when `step = 0`; otherwise the usual
(possibly empty) arithmetic progression. -/
def pyRange (start stop step : Int) : Option (List Int) :=
  if step = 0 then none
  else
    let len : Nat := (if 0 < step then ((stop - start) + step - 1) / step
      else ((start - stop) + (-step) - 1) / (-step)).toNat
    some ((List.range len).map (fun k => start + (k : Int) * step))

/-- `slice_ranges(n, size)` of build_chunks_subchunks_sentences_fix.py with
Python `range` semantics over the integers. -/
def slice_ranges_py (n size : Int) : Option (List (Int × Int)) :=
  (pyRange 0 n size).map (fun l => l.map (fun i => (i, min (i + size) n)))

/-- `slice_ranges(n, size)` of scripts/build_chunks_subchunks_sentences.py:
the `while start < n: ranges.append((start, min(start + size, n) - 1));
start += size` loop, with explicit fuel; `none` means the loop has not
finished within `fuel` iterations (so `∀ fuel, … = none` is
non-termination). -/
def slice_ranges_loop : Nat → Int → Int → Int → Option (List (Int × Int))
  | 0, _, _, _ => none
  | fuel + 1, start, n, size =>
    if start < n then
      (slice_ranges_loop fuel (start + size) n size).map
        (fun rest => (start, min (start + size) n - 1) :: rest)
    else some []

/-- C7: contrary to the claim, no `InvalidConfig` error is signalled for
`size ≤ 0`: the fix variant returns the empty span list for `size = -1`
(and only `size = 0` raises, a `ValueError` from `range`), while the
while-loop variant never terminates for `size = 0` or `size = -1` when
`n = 5 > 0` — for every fuel bound it is still running. -/
theorem slicer_nonpositive_size_behavior :
    slice_ranges_py 5 (-1) = some [] ∧
    slice_ranges_py 5 0 = none ∧
    (∀ fuel, slice_ranges_loop fuel 0 5 0 = none) ∧
    (∀ fuel, slice_ranges_loop fuel 0 5 (-1) = none) := by
  refine ⟨by decide, by decide, ?_, ?_⟩
  · intro fuel
    induction fuel with
    | zero => rfl
    | succ fuel ih =>
      simp only [slice_ranges_loop]
      rw [if_pos (show (0 : Int) < 5 by decide)]
      have h00 : (0 : Int) + 0 = 0 := by ring
      rw [h00, ih]
      rfl
  · have key : ∀ fuel (start : Int), start < 5 →
        slice_ranges_loop fuel start 5 (-1) = none := by
      intro fuel
      induction fuel with
      | zero =>
        intro start h
        rfl
      | succ fuel ih =>
        intro start h
        simp only [slice_ranges_loop]
        rw [if_pos h, ih (start + (-1)) (by omega)]
        rfl
    intro fuel
    exact key fuel 0 (by decide)
